import Mathlib

/-!
Shallow embedding of `src/statistics.py` (qq-group-statistics).

The transcript is modelled as a list of lines (`List String`); Python
strings are modelled as `String`/`List Char`, Python dicts (which keep
insertion order) as association lists, and the optional callback
arguments of `get_statistics` as `Option`-valued function parameters.
The jieba tokenizer is an external library, so it is a parameter
`lcut : String → List String` of the embedding.
-/

namespace QQStats

/-! ## Python string primitives, embedded structurally on `List Char` -/

/-- Python `str.strip()` on the character list: whitespace removed from
both ends. -/
def pyTrim (l : List Char) : List Char :=
  ((l.dropWhile Char.isWhitespace).reverse.dropWhile Char.isWhitespace).reverse

/-- Python `s.split(sep)` for a one-character separator: split on every
occurrence, keeping empty fragments (so `"".split(" ") = [""]`). -/
def splitOnChar (sep : Char) : List Char → List (List Char)
  | [] => [[]]
  | c :: rest =>
    let r := splitOnChar sep rest
    if c = sep then [] :: r
    else
      match r with
      | [] => [[c]]
      | g :: gs => (c :: g) :: gs

/-- Python `sep.join(groups)` for a one-character separator. -/
def joinWithChar (sep : Char) : List (List Char) → List Char
  | [] => []
  | [g] => g
  | g :: gs => g ++ sep :: joinWithChar sep gs

/-- Python `s.rfind(c)`: index of the last occurrence of `c`, or `-1`
when `c` does not occur. -/
def rfindChar : List Char → Char → Int
  | [], _ => -1
  | x :: xs, c =>
    let r := rfindChar xs c
    if r ≥ 0 then r + 1
    else if x = c then 0 else -1

/-- Clamp a (possibly negative) Python slice index into `[0, n]`:
negative indices count from the end of the string. -/
def pySliceIdx (n : Nat) (i : Int) : Nat :=
  if i < 0 then (i + n).toNat else min i.toNat n

/-- Python slice `s[a:b]` with Python's index conventions. -/
def pySlice (l : List Char) (a b : Int) : List Char :=
  (l.take (pySliceIdx l.length b)).drop (pySliceIdx l.length a)

/-- `re.search(r"^\d{4}-\d{2}-\d{2}", i)` succeeds: the line begins with
four digits, a dash, two digits, a dash, two digits. -/
def matchesDate : List Char → Bool
  | a :: b :: c :: d :: e :: f :: g :: h :: i :: j :: _ =>
    a.isDigit && b.isDigit && c.isDigit && d.isDigit && (e == '-') &&
    f.isDigit && g.isDigit && (h == '-') && i.isDigit && j.isDigit
  | _ => false

/-! ## The header name/id field -/

/-- `" ".join(prev_info_line.split(" ")[2:])`: the part of the header
line after the first two space-separated tokens. -/
def nameQQField (info : List Char) : List Char :=
  joinWithChar ' ' ((splitOnChar ' ' info).drop 2)

/-- The name/id extraction of `get_statistics` lines 54–59:
`rfind("(")`, falling back to `rfind("<")` when absent, then the Python
slices `name_qq[:idx]` and `name_qq[idx+1:-1]`. -/
def parseNameQQ (nq : List Char) : List Char × List Char :=
  let lp := rfindChar nq '('
  let li := if lp = -1 then rfindChar nq '<' else lp
  (pySlice nq 0 li, pySlice nq (li + 1) (-1))

/-! ## Insertion-ordered maps (Python dicts) -/

/-- `d[k] += 1` with `d[k] = 1` on first sight: append-or-increment on
an insertion-ordered association list. -/
def incr : List (String × Nat) → String → List (String × Nat)
  | [], k => [(k, 1)]
  | (k', v) :: rest, k =>
    if k' = k then (k', v + 1) :: rest else (k', v) :: incr rest k

/-- `d[k] = v`: overwrite in place, or append when the key is new. -/
def setName : List (String × String) → String → String → List (String × String)
  | [], k, v => [(k, v)]
  | (k', v') :: rest, k, v =>
    if k' = k then (k', v) :: rest else (k', v') :: setName rest k v

/-- Lookup in an association list (`d[k]` / `k in d`). -/
def alookup {α : Type} : List (String × α) → String → Option α
  | [], _ => none
  | (k', v) :: rest, k => if k' = k then some v else alookup rest k

/-- The key list of a map, in insertion order. -/
def keysOf {α : Type} (m : List (String × α)) : List String :=
  m.map Prod.fst

/-- `d.get(k, 0)`. -/
def getCount (m : List (String × Nat)) (k : String) : Nat :=
  (alookup m k).getD 0

/-- `sum(d.values())`. -/
def sumVals (m : List (String × Nat)) : Nat :=
  (m.map Prod.snd).sum

/-! ## The parser/aggregator state machine of `get_statistics` -/

/-- The loop state of `get_statistics`: the three parser flags and the
five accumulators. -/
structure StatState where
  prev_is_info_line : Bool
  prev_info_line : String
  prev_date : String
  words : List String
  total_counts : List (String × Nat)
  annoy_counts : List (String × Nat)
  speak_counts : List (String × Nat)
  card_names : List (String × String)
deriving Repr, DecidableEq

/-- `msg_filter is None or msg_filter(date, name, qq, msg)`. -/
def mfAccepts (mf : Option (String → String → String → String → Bool))
    (d n q m : String) : Bool :=
  match mf with
  | none => true
  | some f => f d n q m

/-- `speak_filter is None or speak_filter(name, qq)`. -/
def sfAccepts (sf : Option (String → String → Bool)) (n q : String) : Bool :=
  match sf with
  | none => true
  | some f => f n q

/-- `word_filter is None or word_filter(word)`. -/
def wfAccepts (wf : Option (String → Bool)) (w : String) : Bool :=
  match wf with
  | none => true
  | some f => f w

/-- `if msg_preprocessor is not None: i = msg_preprocessor(i)`. -/
def applyPre (mp : Option (String → String)) (m : String) : String :=
  match mp with
  | none => m
  | some f => f m

/-- The body of the `elif prev_is_info_line:` branch (lines 51–85),
applied to a state whose `prev_is_info_line` flag has already been
cleared, with `i` the stripped body line. -/
def processRecord (lcut : String → List String)
    (mf : Option (String → String → String → String → Bool))
    (mp : Option (String → String))
    (wf : Option (String → Bool))
    (sf : Option (String → String → Bool))
    (st : StatState) (i : String) : StatState :=
  let nq := nameQQField st.prev_info_line.toList
  let name : String := ⟨(parseNameQQ nq).1⟩
  let qq : String := ⟨(parseNameQQ nq).2⟩
  if mfAccepts mf st.prev_date name qq i then
    let st1 := { st with total_counts := incr st.total_counts st.prev_date }
    let st2 :=
      if qq = "80000000" then
        { st1 with annoy_counts := incr st1.annoy_counts st.prev_date }
      else st1
    let st3 :=
      if sfAccepts sf name qq then
        { st2 with speak_counts := incr st2.speak_counts qq,
                   card_names := setName st2.card_names qq name }
      else st2
    { st3 with
      words := st3.words ++ (lcut (applyPre mp i)).filter (wfAccepts wf) }
  else st

/-- One iteration of the `for i in f:` loop of `get_statistics`. -/
def processLine (lcut : String → List String)
    (mf : Option (String → String → String → String → Bool))
    (mp : Option (String → String))
    (wf : Option (String → Bool))
    (sf : Option (String → String → Bool))
    (st : StatState) (line : String) : StatState :=
  let il := pyTrim line.toList
  if matchesDate il then
    { st with prev_is_info_line := true,
              prev_info_line := ⟨il⟩,
              prev_date := ⟨il.take 10⟩ }
  else if st.prev_is_info_line then
    processRecord lcut mf mp wf sf { st with prev_is_info_line := false } ⟨il⟩
  else
    { st with prev_is_info_line := false }

/-- The initial loop state of `get_statistics`. -/
def initState : StatState :=
  ⟨false, "", "", [], [], [], [], []⟩

/-- `get_statistics`: fold the line loop over the transcript and return
`(words, total_counts, annoy_counts, speak_counts, card_names)`. -/
def get_statistics (lcut : String → List String)
    (mf : Option (String → String → String → String → Bool))
    (mp : Option (String → String))
    (wf : Option (String → Bool))
    (sf : Option (String → String → Bool))
    (lines : List String) :
    List String × List (String × Nat) × List (String × Nat) ×
      List (String × Nat) × List (String × String) :=
  let st := lines.foldl (processLine lcut mf mp wf sf) initState
  (st.words, st.total_counts, st.annoy_counts, st.speak_counts, st.card_names)

/-! ## Counting the records accepted by `msg_filter` -/

/-- Whether an emitted record passes `msg_filter`, given the pending
header line, its date, and the stripped body line. -/
def recordAccepted (mf : Option (String → String → String → String → Bool))
    (pdate pinfo i : String) : Bool :=
  let nq := nameQQField pinfo.toList
  mfAccepts mf pdate ⟨(parseNameQQ nq).1⟩ ⟨(parseNameQQ nq).2⟩ i

/-- The number of two-line records emitted by the parser and accepted by
`msg_filter`, tracked with the same three parser flags. -/
def acceptedCountAux (mf : Option (String → String → String → String → Bool)) :
    Bool → String → String → List String → Nat
  | _, _, _, [] => 0
  | b, pinfo, pdate, line :: rest =>
    let il := pyTrim line.toList
    if matchesDate il then
      acceptedCountAux mf true ⟨il⟩ ⟨il.take 10⟩ rest
    else if b then
      (if recordAccepted mf pdate pinfo ⟨il⟩ then 1 else 0) +
        acceptedCountAux mf false pinfo pdate rest
    else
      acceptedCountAux mf false pinfo pdate rest

/-- The number of records of a transcript accepted by `msg_filter`. -/
def acceptedCount (mf : Option (String → String → String → String → Bool))
    (lines : List String) : Nat :=
  acceptedCountAux mf false "" "" lines

/-! ## `qq_msg_preprocessor`: Python `re.sub("@.+ ", "", msg)`

`.` matches any character except a newline — in particular it matches
spaces, and `.+` is greedy, so a match runs from an `@` to the *last*
space reachable without crossing a newline. `re.sub` replaces the
leftmost match, then continues scanning after it. -/

/-- Index (in `rest`, the text after an `@`) of the space ending the
greedy match of `.+ `: the last space in the newline-free run, or `-1`. -/
def mentionSpaceIdx (rest : List Char) : Int :=
  rfindChar (rest.takeWhile (fun c => c != '\n')) ' '

/-- Try to match `@.+ ` at the head of the text (greedily); on success
return the text after the match. The `.+` needs at least one character,
so the terminating space must be at index ≥ 1 of the tail. -/
def matchMentionAt : List Char → Option (List Char)
  | [] => none
  | c :: rest =>
    if c = '@' then
      let p := mentionSpaceIdx rest
      if p ≥ 1 then some (rest.drop (p.toNat + 1)) else none
    else none

/-- `re.sub` scan: at each position try the pattern; on a match, drop it
and continue after it, otherwise keep the character. The fuel argument
only serves termination and never runs out when it starts at the length
of the text. -/
def subMentionAux : Nat → List Char → List Char
  | 0, l => l
  | _ + 1, [] => []
  | fuel + 1, c :: rest =>
    match matchMentionAt (c :: rest) with
    | some t => subMentionAux fuel t
    | none => c :: subMentionAux fuel rest

/-- `re.sub("@.+ ", "", l)` on a character list. -/
def subMention (l : List Char) : List Char :=
  subMentionAux l.length l

/-- `qq_msg_preprocessor(msg)`: remove mentions via
`re.sub("@.+ ", "", msg)`. -/
def qq_msg_preprocessor (msg : String) : String :=
  ⟨subMention msg.toList⟩

/-- What the spec describes the preprocessor as doing, following its
words: remove each `@mention ` pattern, an `@` followed by one or more
NON-SPACE characters up to the next space (inclusive), leaving the rest
of the text unchanged. Stated for comparison with `qq_msg_preprocessor`. -/
def specStripAux : Nat → List Char → List Char
  | 0, l => l
  | _ + 1, [] => []
  | fuel + 1, c :: rest =>
    if c = '@' ∧ rest.takeWhile (fun ch => ch != ' ') ≠ [] ∧
        rest.dropWhile (fun ch => ch != ' ') ≠ [] then
      specStripAux fuel ((rest.dropWhile (fun ch => ch != ' ')).drop 1)
    else
      c :: specStripAux fuel rest

/-- Spec-side mention stripping (see `specStripAux`). -/
def specStripMentions (l : List Char) : List Char :=
  specStripAux l.length l

/-! ## The remaining concrete filters -/

/-- `qq_word_filter(word)`: `len(word) > 1 and word not in stop_words`.
The stop-word set is loaded from a data file not part of the source, so
it is a parameter here. -/
def qq_word_filter (stop_words : List String) (word : String) : Bool :=
  decide (word.length > 1) && !(stop_words.contains word)

/-- `no_annoy_sys_speak_filter(name, qq)`:
`qq != "80000000" and qq != "1000000"`. -/
def no_annoy_sys_speak_filter (name qq : String) : Bool :=
  !(qq == "80000000") && !(qq == "1000000")

/-! ## Lemmas about the insertion-ordered maps -/

theorem sumVals_incr (m : List (String × Nat)) (k : String) :
    sumVals (incr m k) = sumVals m + 1 := by
  induction m with
  | nil => simp [incr, sumVals]
  | cons p rest ih =>
    obtain ⟨k', v⟩ := p
    by_cases h : k' = k <;> simp [incr, sumVals, h] <;>
      simp [sumVals] at ih <;> omega

theorem alookup_incr_self (m : List (String × Nat)) (k : String) :
    alookup (incr m k) k = some (getCount m k + 1) := by
  induction m with
  | nil => simp [incr, alookup, getCount]
  | cons p rest ih =>
    obtain ⟨k', v⟩ := p
    by_cases h : k' = k <;> simp [incr, alookup, getCount, h] at ih ⊢ <;>
      simpa [getCount] using ih

theorem keysOf_incr (m : List (String × Nat)) (k : String) :
    keysOf (incr m k) =
      if k ∈ keysOf m then keysOf m else keysOf m ++ [k] := by
  induction m with
  | nil => simp [incr, keysOf]
  | cons p rest ih =>
    obtain ⟨k', v⟩ := p
    by_cases h : k' = k
    · simp [incr, keysOf, h]
    · simp only [incr, if_neg h, keysOf, List.map_cons] at ih ⊢
      rw [ih]
      have h2 : ¬ k = k' := fun hh => h hh.symm
      by_cases hm : k ∈ List.map Prod.fst rest <;>
        simp [hm, h2, List.mem_cons]

theorem keysOf_setName (m : List (String × String)) (k v : String) :
    keysOf (setName m k v) =
      if k ∈ keysOf m then keysOf m else keysOf m ++ [k] := by
  induction m with
  | nil => simp [setName, keysOf]
  | cons p rest ih =>
    obtain ⟨k', v'⟩ := p
    by_cases h : k' = k
    · simp [setName, keysOf, h]
    · simp only [setName, if_neg h, keysOf, List.map_cons] at ih ⊢
      rw [ih]
      have h2 : ¬ k = k' := fun hh => h hh.symm
      by_cases hm : k ∈ List.map Prod.fst rest <;>
        simp [hm, h2, List.mem_cons]

theorem mem_keysOf_incr (m : List (String × Nat)) (k a : String) :
    a ∈ keysOf (incr m k) ↔ a ∈ keysOf m ∨ a = k := by
  rw [keysOf_incr]
  by_cases hm : k ∈ keysOf m
  · simp only [if_pos hm]
    constructor
    · exact Or.inl
    · rintro (h | rfl) <;> [exact h; exact hm]
  · simp [if_neg hm]

theorem incr_vals_pos (m : List (String × Nat)) (k : String)
    (h : ∀ p ∈ m, 1 ≤ p.2) : ∀ p ∈ incr m k, 1 ≤ p.2 := by
  induction m with
  | nil => simp [incr]
  | cons q rest ih =>
    obtain ⟨k', v⟩ := q
    intro p hp
    by_cases hk : k' = k
    · simp only [incr, if_pos hk] at hp
      rcases List.mem_cons.mp hp with rfl | hm
      · simpa using Nat.le_add_left 1 v
      · exact h p (List.mem_cons_of_mem _ hm)
    · simp only [incr, if_neg hk] at hp
      rcases List.mem_cons.mp hp with rfl | hm
      · exact h _ (List.mem_cons_self _ _)
      · exact ih (fun q hq => h q (List.mem_cons_of_mem _ hq)) p hm

/-! ## A normal form for `processRecord` -/

/-- `processRecord` written with one explicit expression per field. -/
theorem processRecord_eq (lcut : String → List String)
    (mf : Option (String → String → String → String → Bool))
    (mp : Option (String → String))
    (wf : Option (String → Bool))
    (sf : Option (String → String → Bool))
    (st : StatState) (i : String) :
    processRecord lcut mf mp wf sf st i =
      (let nq := nameQQField st.prev_info_line.toList
       let name : String := ⟨(parseNameQQ nq).1⟩
       let qq : String := ⟨(parseNameQQ nq).2⟩
       if mfAccepts mf st.prev_date name qq i then
        { st with
          total_counts := incr st.total_counts st.prev_date,
          annoy_counts :=
            if qq = "80000000" then incr st.annoy_counts st.prev_date
            else st.annoy_counts,
          speak_counts :=
            if sfAccepts sf name qq then incr st.speak_counts qq
            else st.speak_counts,
          card_names :=
            if sfAccepts sf name qq then setName st.card_names qq name
            else st.card_names,
          words := st.words ++ (lcut (applyPre mp i)).filter (wfAccepts wf) }
       else st) := by
  simp only [processRecord]
  split
  · split <;> split <;> rfl
  · rfl

/-! ## Fold invariants of the line loop -/

/-- Any property preserved by `processLine` is preserved by the whole
line loop. -/
theorem foldl_preserves (lcut : String → List String)
    (mf : Option (String → String → String → String → Bool))
    (mp : Option (String → String))
    (wf : Option (String → Bool))
    (sf : Option (String → String → Bool))
    (P : StatState → Prop)
    (hstep : ∀ st l, P st → P (processLine lcut mf mp wf sf st l)) :
    ∀ (lines : List String) (st : StatState),
      P st → P (lines.foldl (processLine lcut mf mp wf sf) st) := by
  intro lines
  induction lines with
  | nil => intro st h; exact h
  | cons l rest ih => intro st h; exact ih _ (hstep _ _ h)

/-- The running sum of `total_counts` counts exactly the records
accepted by `msg_filter`, relative to the current parser flags. -/
theorem sumTotal_foldl (lcut : String → List String)
    (mf : Option (String → String → String → String → Bool))
    (mp : Option (String → String))
    (wf : Option (String → Bool))
    (sf : Option (String → String → Bool)) :
    ∀ (lines : List String) (st : StatState),
      sumVals ((lines.foldl (processLine lcut mf mp wf sf) st).total_counts)
        = sumVals st.total_counts
          + acceptedCountAux mf st.prev_is_info_line st.prev_info_line
              st.prev_date lines := by
  intro lines
  induction lines with
  | nil => intro st; simp [acceptedCountAux]
  | cons l rest ih =>
    intro st
    simp only [List.foldl_cons]
    rw [ih]
    simp only [processLine, acceptedCountAux, recordAccepted, String.toList]
    by_cases hd : matchesDate (pyTrim l.data) = true
    · simp [hd]
    · cases hb : st.prev_is_info_line
      · simp [hd, hb]
      · simp only [hd, hb, if_false, if_true, Bool.false_eq_true,
          ite_false, ite_true]
        rw [processRecord_eq]
        simp only [String.toList]
        by_cases hacc : mfAccepts mf st.prev_date
            ⟨(parseNameQQ (nameQQField st.prev_info_line.data)).1⟩
            ⟨(parseNameQQ (nameQQField st.prev_info_line.data)).2⟩
            ⟨pyTrim l.data⟩ = true
        · simp [hacc, sumVals_incr]
          omega
        · simp [hacc]

/-- One loop step keeps `sum(annoy) ≤ sum(total)`: the anonymous tally
is only bumped in the accepted branch, right after the total tally. -/
theorem step_annoy_le_total (lcut : String → List String)
    (mf : Option (String → String → String → String → Bool))
    (mp : Option (String → String))
    (wf : Option (String → Bool))
    (sf : Option (String → String → Bool))
    (st : StatState) (l : String)
    (h : sumVals st.annoy_counts ≤ sumVals st.total_counts) :
    sumVals ((processLine lcut mf mp wf sf st l).annoy_counts)
      ≤ sumVals ((processLine lcut mf mp wf sf st l).total_counts) := by
  simp only [processLine]
  split
  · simpa using h
  · split
    · rw [processRecord_eq]
      simp only []
      split
      · simp only []
        split <;> simp [sumVals_incr] <;> omega
      · simpa using h
    · simpa using h

/-- One loop step keeps the key lists of `speak_counts` and
`card_names` equal: both are written together under `speak_filter`. -/
theorem step_keys_speak_card (lcut : String → List String)
    (mf : Option (String → String → String → String → Bool))
    (mp : Option (String → String))
    (wf : Option (String → Bool))
    (sf : Option (String → String → Bool))
    (st : StatState) (l : String)
    (h : keysOf st.speak_counts = keysOf st.card_names) :
    keysOf ((processLine lcut mf mp wf sf st l).speak_counts)
      = keysOf ((processLine lcut mf mp wf sf st l).card_names) := by
  simp only [processLine]
  split
  · simpa using h
  · split
    · rw [processRecord_eq]
      simp only []
      split
      · simp only []
        split
        · simp [keysOf_incr, keysOf_setName, h]
        · simpa using h
      · simpa using h
    · simpa using h

/-- One loop step keeps anonymous-count keys inside total-count keys and
all stored counts positive. -/
theorem step_annoy_inv (lcut : String → List String)
    (mf : Option (String → String → String → String → Bool))
    (mp : Option (String → String))
    (wf : Option (String → Bool))
    (sf : Option (String → String → Bool))
    (st : StatState) (l : String)
    (h1 : ∀ k ∈ keysOf st.annoy_counts, k ∈ keysOf st.total_counts)
    (h2 : ∀ p ∈ st.total_counts, 1 ≤ p.2)
    (h3 : ∀ p ∈ st.annoy_counts, 1 ≤ p.2) :
    (∀ k ∈ keysOf ((processLine lcut mf mp wf sf st l).annoy_counts),
       k ∈ keysOf ((processLine lcut mf mp wf sf st l).total_counts)) ∧
    (∀ p ∈ (processLine lcut mf mp wf sf st l).total_counts, 1 ≤ p.2) ∧
    (∀ p ∈ (processLine lcut mf mp wf sf st l).annoy_counts, 1 ≤ p.2) := by
  simp only [processLine]
  split
  · refine ⟨?_, ?_, ?_⟩
    · simpa using h1
    · simpa using h2
    · simpa using h3
  · split
    · rw [processRecord_eq]
      simp only []
      split
      · simp only []
        refine ⟨?_, ?_, ?_⟩
        · intro k hk
          rw [mem_keysOf_incr]
          split at hk
          · rcases (mem_keysOf_incr _ _ _).mp hk with hm | rfl
            · exact Or.inl (h1 _ hm)
            · exact Or.inr rfl
          · exact Or.inl (h1 _ hk)
        · exact incr_vals_pos _ _ h2
        · split
          · exact incr_vals_pos _ _ h3
          · exact h3
      · refine ⟨?_, ?_, ?_⟩
        · simpa using h1
        · simpa using h2
        · simpa using h3
    · refine ⟨?_, ?_, ?_⟩
      · simpa using h1
      · simpa using h2
      · simpa using h3

theorem getCount_incr (m : List (String × Nat)) (k : String) :
    getCount (incr m k) k = getCount m k + 1 := by
  rw [getCount, alookup_incr_self]
  rfl

/-! ## `rfind` and slice lemmas -/

theorem rfindChar_neg (l : List Char) (c : Char) (h : c ∉ l) :
    rfindChar l c = -1 := by
  induction l with
  | nil => rfl
  | cons x xs ih =>
    have hx : ¬ x = c := fun he => h (he ▸ List.mem_cons_self x xs)
    have hxs : c ∉ xs := fun hm => h (List.mem_cons_of_mem _ hm)
    simp [rfindChar, ih hxs, hx]

theorem rfindChar_last (l1 l2 : List Char) (c : Char) (h : c ∉ l2) :
    rfindChar (l1 ++ c :: l2) c = (l1.length : Int) := by
  induction l1 with
  | nil => simp [rfindChar, rfindChar_neg l2 c h]
  | cons x xs ih =>
    simp only [List.cons_append, rfindChar, List.append_eq, ih]
    rw [if_pos (by omega)]
    simp only [List.length_cons]
    push_cast
    ring

theorem pySliceIdx_cast (n m : Nat) : pySliceIdx n (m : Int) = min m n := by
  rw [pySliceIdx, if_neg (by omega), Int.toNat_natCast]

theorem pySliceIdx_negone (n : Nat) : pySliceIdx n (-1) = n - 1 := by
  rw [pySliceIdx, if_pos (by omega)]
  omega

theorem pySliceIdx_zero (n : Nat) : pySliceIdx n 0 = 0 := by
  rw [pySliceIdx, if_neg (by omega)]
  simp

theorem pySlice_take_pre (u rest : List Char) :
    pySlice (u ++ rest) 0 (u.length : Int) = u := by
  rw [pySlice, pySliceIdx_zero, pySliceIdx_cast, List.length_append,
    Nat.min_eq_left (by omega), List.take_left, List.drop_zero]

theorem pySlice_mid (u v : List Char) (d w : Char) :
    pySlice (u ++ d :: (v ++ [w])) ((u.length : Int) + 1) (-1) = v := by
  have hcast : ((u.length : Int) + 1) = ((u.length + 1 : Nat) : Int) := by
    push_cast
    ring
  rw [pySlice, hcast, pySliceIdx_cast, pySliceIdx_negone]
  have hlen : (u ++ d :: (v ++ [w])).length = u.length + v.length + 2 := by
    simp
    omega
  rw [hlen, Nat.min_eq_left (by omega)]
  have hassoc : u ++ d :: (v ++ [w]) = (u ++ d :: v) ++ [w] := by simp
  rw [hassoc]
  have htake : ((u ++ d :: v) ++ [w]).take (u.length + v.length + 2 - 1)
      = u ++ d :: v := by
    have hl : (u ++ d :: v).length = u.length + v.length + 2 - 1 := by
      simp
      omega
    rw [← hl, List.take_left]
  rw [htake]
  have hassoc2 : u ++ d :: v = (u ++ [d]) ++ v := by simp
  have hl2 : u.length + 1 = (u ++ [d]).length := by simp
  rw [hassoc2, hl2, List.drop_left]

theorem pySlice_zero_negone (l : List Char) : pySlice l 0 (-1) = l.dropLast := by
  rw [pySlice, pySliceIdx_zero, pySliceIdx_negone, List.drop_zero,
    List.dropLast_eq_take]

/-! ## Claim theorems -/

/-- C1: for every transcript and every choice of filters, the sum of the
values of the total-count map returned by `get_statistics` equals the
number of records accepted by `msg_filter`, and that sum is at least the
sum of the values of the anonymous-count map. -/
theorem total_count_sum_eq_accepted (lcut : String → List String)
    (mf : Option (String → String → String → String → Bool))
    (mp : Option (String → String))
    (wf : Option (String → Bool))
    (sf : Option (String → String → Bool))
    (lines : List String) :
    sumVals (get_statistics lcut mf mp wf sf lines).2.1
        = acceptedCount mf lines ∧
    sumVals (get_statistics lcut mf mp wf sf lines).2.2.1
        ≤ sumVals (get_statistics lcut mf mp wf sf lines).2.1 := by
  constructor
  · simpa [get_statistics, acceptedCount, initState, sumVals] using
      sumTotal_foldl lcut mf mp wf sf lines initState
  · have h := foldl_preserves lcut mf mp wf sf
      (fun st => sumVals st.annoy_counts ≤ sumVals st.total_counts)
      (fun st l hh => step_annoy_le_total lcut mf mp wf sf st l hh)
      lines initState (by simp [initState, sumVals])
    simpa [get_statistics] using h

/-- C4: for every transcript and every choice of filters, the speak-count
map and the card-name map returned by `get_statistics` have exactly the
same key set. -/
theorem speak_card_same_keys (lcut : String → List String)
    (mf : Option (String → String → String → String → Bool))
    (mp : Option (String → String))
    (wf : Option (String → Bool))
    (sf : Option (String → String → Bool))
    (lines : List String) (k : String) :
    k ∈ keysOf (get_statistics lcut mf mp wf sf lines).2.2.2.1
      ↔ k ∈ keysOf (get_statistics lcut mf mp wf sf lines).2.2.2.2 := by
  have h := foldl_preserves lcut mf mp wf sf
    (fun st => keysOf st.speak_counts = keysOf st.card_names)
    (fun st l hh => step_keys_speak_card lcut mf mp wf sf st l hh)
    lines initState (by simp [initState, keysOf])
  simp only [get_statistics]
  rw [h]

/-- C5: for every transcript and every choice of filters, every entry of
the anonymous-count map has its date among the keys of the total-count
map, and every entry stored in either day-count map has value at least 1
(absence means zero; no explicit zero is ever stored). -/
theorem annoy_subset_total_and_pos (lcut : String → List String)
    (mf : Option (String → String → String → String → Bool))
    (mp : Option (String → String))
    (wf : Option (String → Bool))
    (sf : Option (String → String → Bool))
    (lines : List String) (k : String) (v : Nat)
    (h : (k, v) ∈ (get_statistics lcut mf mp wf sf lines).2.2.1 ∨
         (k, v) ∈ (get_statistics lcut mf mp wf sf lines).2.1) :
    k ∈ keysOf (get_statistics lcut mf mp wf sf lines).2.1 ∧ 1 ≤ v := by
  have hinv := foldl_preserves lcut mf mp wf sf
    (fun st =>
      (∀ k ∈ keysOf st.annoy_counts, k ∈ keysOf st.total_counts) ∧
      (∀ p ∈ st.total_counts, 1 ≤ p.2) ∧
      (∀ p ∈ st.annoy_counts, 1 ≤ p.2))
    (fun st l hh => step_annoy_inv lcut mf mp wf sf st l hh.1 hh.2.1 hh.2.2)
    lines initState (by simp [initState, keysOf])
  obtain ⟨i1, i2, i3⟩ := hinv
  simp only [get_statistics] at h ⊢
  rcases h with h | h
  · exact ⟨i1 k (by simpa [keysOf] using List.mem_map_of_mem Prod.fst h),
      i3 _ h⟩
  · exact ⟨by simpa [keysOf] using List.mem_map_of_mem Prod.fst h, i2 _ h⟩

/-- C2: the transcript consisting of the header line
`2023-09-15 10:00:00 Alice(111)` followed by the body line
`hello world`, with any `msg_filter` accepting the record and the
default (always-true) `speak_filter`, gives
total-count["2023-09-15"] = 1, speak-count["111"] = 1 and
card-name["111"] = "Alice". -/
theorem scenario_alice (lcut : String → List String)
    (mf : Option (String → String → String → String → Bool))
    (hacc : mfAccepts mf "2023-09-15" "Alice" "111" "hello world" = true) :
    alookup (get_statistics lcut mf none none none
      ["2023-09-15 10:00:00 Alice(111)", "hello world"]).2.1 "2023-09-15"
        = some 1 ∧
    alookup (get_statistics lcut mf none none none
      ["2023-09-15 10:00:00 Alice(111)", "hello world"]).2.2.2.1 "111"
        = some 1 ∧
    alookup (get_statistics lcut mf none none none
      ["2023-09-15 10:00:00 Alice(111)", "hello world"]).2.2.2.2 "111"
        = some "Alice" := by
  simp only [get_statistics, List.foldl]
  rw [show processLine lcut mf none none none initState
        "2023-09-15 10:00:00 Alice(111)"
      = ⟨true, "2023-09-15 10:00:00 Alice(111)", "2023-09-15",
          [], [], [], [], []⟩ from rfl]
  rw [show processLine lcut mf none none none
        ⟨true, "2023-09-15 10:00:00 Alice(111)", "2023-09-15",
          [], [], [], [], []⟩ "hello world"
      = processRecord lcut mf none none none
        ⟨false, "2023-09-15 10:00:00 Alice(111)", "2023-09-15",
          [], [], [], [], []⟩ "hello world" from rfl]
  rw [processRecord_eq]
  have hname : (⟨(parseNameQQ (nameQQField
      ("2023-09-15 10:00:00 Alice(111)" : String).toList)).1⟩ : String)
      = "Alice" := rfl
  have hqq : (⟨(parseNameQQ (nameQQField
      ("2023-09-15 10:00:00 Alice(111)" : String).toList)).2⟩ : String)
      = "111" := rfl
  simp only [hname, hqq]
  simp [hacc]
  refine ⟨by decide, by decide, by decide⟩

/-- Witness for C2, with the always-accepting message filter. -/
theorem scenario_alice_witness :
    alookup (get_statistics (fun s => [s]) (some fun _ _ _ _ => true)
      none none none
      ["2023-09-15 10:00:00 Alice(111)", "hello world"]).2.1 "2023-09-15"
        = some 1 ∧
    alookup (get_statistics (fun s => [s]) (some fun _ _ _ _ => true)
      none none none
      ["2023-09-15 10:00:00 Alice(111)", "hello world"]).2.2.2.1 "111"
        = some 1 ∧
    alookup (get_statistics (fun s => [s]) (some fun _ _ _ _ => true)
      none none none
      ["2023-09-15 10:00:00 Alice(111)", "hello world"]).2.2.2.2 "111"
        = some "Alice" :=
  scenario_alice (fun s => [s]) (some fun _ _ _ _ => true) rfl

/-- C3: an accepted record whose sender id is the reserved anonymous id
"80000000" bumps both the total count and the anonymous count of its
date, and with `no_annoy_sys_speak_filter` installed the speak-count map
and the card-name map are left untouched. -/
theorem anonymous_record_counts (lcut : String → List String)
    (mf : Option (String → String → String → String → Bool))
    (mp : Option (String → String))
    (wf : Option (String → Bool))
    (st : StatState) (line : String)
    (hprev : st.prev_is_info_line = true)
    (hqq : (parseNameQQ (nameQQField st.prev_info_line.toList)).2
      = "80000000".toList)
    (hdate : matchesDate (pyTrim line.toList) = false)
    (hacc : recordAccepted mf st.prev_date st.prev_info_line
      ⟨pyTrim line.toList⟩ = true) :
    getCount ((processLine lcut mf mp wf (some no_annoy_sys_speak_filter)
        st line).total_counts) st.prev_date
      = getCount st.total_counts st.prev_date + 1 ∧
    getCount ((processLine lcut mf mp wf (some no_annoy_sys_speak_filter)
        st line).annoy_counts) st.prev_date
      = getCount st.annoy_counts st.prev_date + 1 ∧
    (processLine lcut mf mp wf (some no_annoy_sys_speak_filter)
        st line).speak_counts = st.speak_counts ∧
    (processLine lcut mf mp wf (some no_annoy_sys_speak_filter)
        st line).card_names = st.card_names := by
  have hqq2 : (⟨(parseNameQQ (nameQQField st.prev_info_line.toList)).2⟩ :
      String) = "80000000" := by rw [hqq]; rfl
  simp only [recordAccepted] at hacc
  rw [hqq2] at hacc
  simp only [String.toList] at hacc hdate hqq2
  simp only [processLine, String.toList]
  rw [processRecord_eq]
  simp only [String.toList, hqq2]
  simp [hdate, hprev, hacc, sfAccepts, no_annoy_sys_speak_filter,
    getCount_incr]

/-- Witness for C3: one anonymous record on an empty accumulator. -/
theorem anonymous_record_counts_witness :
    getCount ((processLine (fun s => [s]) none none none
        (some no_annoy_sys_speak_filter)
        ⟨true, "2023-09-15 10:00:00 Anon(80000000)", "2023-09-15",
          [], [], [], [], []⟩ "hi").total_counts) "2023-09-15" = 1 ∧
    getCount ((processLine (fun s => [s]) none none none
        (some no_annoy_sys_speak_filter)
        ⟨true, "2023-09-15 10:00:00 Anon(80000000)", "2023-09-15",
          [], [], [], [], []⟩ "hi").annoy_counts) "2023-09-15" = 1 ∧
    (processLine (fun s => [s]) none none none
        (some no_annoy_sys_speak_filter)
        ⟨true, "2023-09-15 10:00:00 Anon(80000000)", "2023-09-15",
          [], [], [], [], []⟩ "hi").speak_counts = [] ∧
    (processLine (fun s => [s]) none none none
        (some no_annoy_sys_speak_filter)
        ⟨true, "2023-09-15 10:00:00 Anon(80000000)", "2023-09-15",
          [], [], [], [], []⟩ "hi").card_names = [] :=
  anonymous_record_counts (fun s => [s]) none none none
    ⟨true, "2023-09-15 10:00:00 Anon(80000000)", "2023-09-15",
      [], [], [], [], []⟩ "hi" rfl (by decide) (by decide) rfl

/-- Witness for C5: a concrete run with one anonymous message. -/
theorem annoy_subset_total_and_pos_witness :
    "2023-09-15" ∈ keysOf (get_statistics (fun s => [s]) none none none none
      ["2023-09-15 10:00:00 Anon(80000000)", "hi"]).2.1 ∧ 1 ≤ 1 :=
  annoy_subset_total_and_pos (fun s => [s]) none none none none
    ["2023-09-15 10:00:00 Anon(80000000)", "hi"] "2023-09-15" 1
    (Or.inl (by decide))

/-- C6: the name/id extraction splits the name-field on the last
opening parenthesis, or, when no parenthesis is present, on the last
angle bracket: everything before the delimiter is the display name and
everything strictly between the delimiter and the final character is the
id.  The name-field itself is what follows the first two space-separated
tokens of the header, and `Bob<222>` parses exactly like `Bob(222)`. -/
theorem header_name_id_extraction :
    (∀ (u v : List Char) (w : Char), '(' ∉ v → w ≠ '(' →
        parseNameQQ (u ++ '(' :: (v ++ [w])) = (u, v)) ∧
    (∀ (u v : List Char) (w : Char), '(' ∉ u → '(' ∉ v → w ≠ '(' →
        '<' ∉ v → w ≠ '<' →
        parseNameQQ (u ++ '<' :: (v ++ [w])) = (u, v)) ∧
    nameQQField ("2023-09-15 10:00:00 Bob<222>".toList) = "Bob<222>".toList ∧
    parseNameQQ ("Bob<222>".toList) = ("Bob".toList, "222".toList) ∧
    parseNameQQ ("Bob(222)".toList) = ("Bob".toList, "222".toList) := by
  refine ⟨?_, ?_, by decide, by decide, by decide⟩
  · intro u v w hv hw
    have hno : '(' ∉ v ++ [w] := by
      intro hm
      rcases List.mem_append.mp hm with hm | hm
      · exact hv hm
      · rw [List.mem_singleton] at hm
        exact hw hm.symm
    have hr : rfindChar (u ++ '(' :: (v ++ [w])) '(' = (u.length : Int) :=
      rfindChar_last u (v ++ [w]) '(' hno
    simp only [parseNameQQ, hr]
    rw [if_neg (by omega)]
    simp only [Prod.mk.injEq]
    exact ⟨pySlice_take_pre u _, pySlice_mid u v '(' w⟩
  · intro u v w hu hv hw1 hv2 hw2
    have hnol : '(' ∉ u ++ '<' :: (v ++ [w]) := by
      intro hm
      rcases List.mem_append.mp hm with hm | hm
      · exact hu hm
      · rcases List.mem_cons.mp hm with hm | hm
        · exact absurd hm (by decide)
        · rcases List.mem_append.mp hm with hm | hm
          · exact hv hm
          · rw [List.mem_singleton] at hm
            exact hw1 hm.symm
    have hno2 : '<' ∉ v ++ [w] := by
      intro hm
      rcases List.mem_append.mp hm with hm | hm
      · exact hv2 hm
      · rw [List.mem_singleton] at hm
        exact hw2 hm.symm
    have hr1 : rfindChar (u ++ '<' :: (v ++ [w])) '(' = -1 :=
      rfindChar_neg _ '(' hnol
    have hr2 : rfindChar (u ++ '<' :: (v ++ [w])) '<' = (u.length : Int) :=
      rfindChar_last u (v ++ [w]) '<' hno2
    simp only [parseNameQQ, hr1, hr2, if_true]
    simp only [Prod.mk.injEq]
    exact ⟨pySlice_take_pre u _, pySlice_mid u v '<' w⟩

/-- Witness for C6: both general extraction cases at concrete inputs. -/
theorem header_name_id_extraction_witness :
    parseNameQQ ("Ann".toList ++ '(' :: ("99".toList ++ [')']))
      = ("Ann".toList, "99".toList) ∧
    parseNameQQ ("Zed".toList ++ '<' :: ("77".toList ++ ['>']))
      = ("Zed".toList, "77".toList) :=
  ⟨header_name_id_extraction.1 "Ann".toList "99".toList ')'
      (by decide) (by decide),
   header_name_id_extraction.2.1 "Zed".toList "77".toList '>'
      (by decide) (by decide) (by decide) (by decide) (by decide)⟩

/-- C10: when the name-field contains neither `(` nor `<`, both `rfind`
calls return `-1`, so the Python slices `name_qq[:-1]` and
`name_qq[0:-1]` make the display name and the id both equal to the
name-field with its final character removed; the record is then
processed with that id (shown on a concrete run below). -/
theorem parse_no_delimiter_total (nq : List Char)
    (h1 : '(' ∉ nq) (h2 : '<' ∉ nq) :
    parseNameQQ nq = (nq.dropLast, nq.dropLast) ∧
    (get_statistics (fun s => [s]) none none none none
      ["2023-09-15 10:00:00 Bob222", "hi"]).2.2.2.1 = [("Bob22", 1)] ∧
    (get_statistics (fun s => [s]) none none none none
      ["2023-09-15 10:00:00 Bob222", "hi"]).2.2.2.2 = [("Bob22", "Bob22")] := by
  refine ⟨?_, by decide, by decide⟩
  simp only [parseNameQQ, rfindChar_neg nq '(' h1, rfindChar_neg nq '<' h2,
    if_true]
  simp only [Prod.mk.injEq]
  constructor
  · exact pySlice_zero_negone nq
  · rw [show (-1 : Int) + 1 = 0 from rfl]
    exact pySlice_zero_negone nq

/-- Witness for C10: a delimiter-free name-field. -/
theorem parse_no_delimiter_total_witness :
    parseNameQQ ("Bob222".toList)
      = ("Bob222".toList.dropLast, "Bob222".toList.dropLast) ∧
    (get_statistics (fun s => [s]) none none none none
      ["2023-09-15 10:00:00 Bob222", "hi"]).2.2.2.1 = [("Bob22", 1)] ∧
    (get_statistics (fun s => [s]) none none none none
      ["2023-09-15 10:00:00 Bob222", "hi"]).2.2.2.2 = [("Bob22", "Bob22")] :=
  parse_no_delimiter_total "Bob222".toList (by decide) (by decide)

/-! ## Lemmas about the mention-stripping regex -/

theorem matchMentionAt_some_length (l t : List Char)
    (h : matchMentionAt l = some t) : t.length < l.length := by
  cases l with
  | nil => simp [matchMentionAt] at h
  | cons c rest =>
    simp only [matchMentionAt] at h
    by_cases hc : c = '@'
    · rw [if_pos hc] at h
      by_cases hp : mentionSpaceIdx rest ≥ 1
      · rw [if_pos hp] at h
        injection h with h
        subst h
        have hd := List.length_drop ((mentionSpaceIdx rest).toNat + 1) rest
        simp only [List.length_cons, hd]
        omega
      · rw [if_neg hp] at h
        exact absurd h (by simp)
    · rw [if_neg hc] at h
      exact absurd h (by simp)

theorem subMentionAux_fuel (f1 : Nat) :
    ∀ (f2 : Nat) (l : List Char), l.length ≤ f1 → l.length ≤ f2 →
      subMentionAux f1 l = subMentionAux f2 l := by
  induction f1 with
  | zero =>
    intro f2 l h1 h2
    have hl : l = [] := by
      cases l with
      | nil => rfl
      | cons c r => simp at h1
    subst hl
    cases f2 <;> rfl
  | succ f ih =>
    intro f2 l h1 h2
    cases l with
    | nil => cases f2 <;> rfl
    | cons c rest =>
      cases f2 with
      | zero => simp at h2
      | succ f2' =>
        simp only [subMentionAux]
        cases hm : matchMentionAt (c :: rest) with
        | some t =>
          have ht := matchMentionAt_some_length _ _ hm
          simp only [List.length_cons] at h1 h2 ht
          exact ih f2' t (by omega) (by omega)
        | none =>
          simp only [List.length_cons] at h1 h2
          rw [ih f2' rest (by omega) (by omega)]

/-- The one-step unfolding of `subMention`. -/
theorem subMention_cons (c : Char) (rest : List Char) :
    subMention (c :: rest) =
      match matchMentionAt (c :: rest) with
      | some t => subMention t
      | none => c :: subMention rest := by
  rw [subMention, List.length_cons, subMentionAux]
  cases hm : matchMentionAt (c :: rest) with
  | some t =>
    have ht := matchMentionAt_some_length _ _ hm
    simp only [List.length_cons] at ht
    exact subMentionAux_fuel _ _ t (by omega) (by omega)
  | none =>
    rw [subMention]

/-- Text without `@` passes through `re.sub("@.+ ", "", ·)` unchanged. -/
theorem subMention_no_at (l : List Char) (h : '@' ∉ l) : subMention l = l := by
  induction l with
  | nil => rfl
  | cons c rest ih =>
    have hc : ¬ c = '@' := fun he => h (he ▸ List.mem_cons_self _ _)
    have hrest : '@' ∉ rest := fun hm => h (List.mem_cons_of_mem _ hm)
    rw [subMention_cons]
    simp [matchMentionAt, hc, ih hrest]

/-- An `@`-free part before the first possible match is copied. -/
theorem subMention_append_no_at (a l : List Char) (h : '@' ∉ a) :
    subMention (a ++ l) = a ++ subMention l := by
  induction a with
  | nil => simp
  | cons c a2 ih =>
    have hc : ¬ c = '@' := fun he => h (he ▸ List.mem_cons_self _ _)
    have ha2 : '@' ∉ a2 := fun hm => h (List.mem_cons_of_mem _ hm)
    rw [List.cons_append, subMention_cons]
    simp [matchMentionAt, hc]
    exact ih ha2

theorem takeWhile_append_sat (p : Char → Bool) (a l : List Char)
    (h : ∀ x ∈ a, p x = true) :
    (a ++ l).takeWhile p = a ++ l.takeWhile p := by
  induction a with
  | nil => simp
  | cons x a2 ih =>
    simp only [List.cons_append, List.takeWhile_cons]
    rw [h x (List.mem_cons_self _ _)]
    simp only [if_true]
    rw [ih (fun y hy => h y (List.mem_cons_of_mem _ hy))]

/-- The greedy match at an `@`: `.+` spans any spaces inside `b`, so the
match ends at the last space before the tail `c` (which contains no
space), and everything through that space is removed. -/
theorem subMention_at_mention (b c : List Char)
    (hb : b ≠ []) (hbn : '\n' ∉ b) (hcs : ' ' ∉ c) (hca : '@' ∉ c) :
    subMention ('@' :: (b ++ ' ' :: c)) = c := by
  have htw : (b ++ ' ' :: c).takeWhile (fun ch => ch != '\n')
      = b ++ ' ' :: c.takeWhile (fun ch => ch != '\n') := by
    rw [takeWhile_append_sat _ b _
      (fun x hx => bne_iff_ne.mpr (fun he => hbn (by rw [← he]; exact hx)))]
    simp [List.takeWhile_cons]
  have hsp : ' ' ∉ c.takeWhile (fun ch => ch != '\n') :=
    fun hm => hcs (List.takeWhile_subset _ hm)
  have hp : mentionSpaceIdx (b ++ ' ' :: c) = (b.length : Int) := by
    rw [mentionSpaceIdx, htw, rfindChar_last _ _ _ hsp]
  have hblen : 1 ≤ b.length := by
    cases b with
    | nil => exact absurd rfl hb
    | cons x xs => simp
  have hmatch : matchMentionAt ('@' :: (b ++ ' ' :: c)) = some c := by
    simp only [matchMentionAt, if_pos rfl, hp]
    rw [if_pos (show ((b.length : Int)) ≥ 1 from by exact_mod_cast hblen)]
    rw [Int.toNat_natCast]
    have hassoc : b ++ ' ' :: c = (b ++ [' ']) ++ c := by simp
    have hl : b.length + 1 = (b ++ [' ']).length := by simp
    rw [hassoc, hl, List.drop_left]
    simp
  rw [subMention_cons, hmatch]
  exact subMention_no_at c hca

/-! ## Claim theorems for the preprocessor, word filter and determinism -/

/-- C7 counterexample: on `"@A x y"` the code's greedy
`re.sub("@.+ ", "", ·)` removes through the LAST space, yielding `"y"`,
while the spec's per-mention stripping (an `@` plus non-space characters
up to the next space) would yield `"x y"`. -/
theorem mention_strip_not_per_mention :
    qq_msg_preprocessor "@A x y" = "y" ∧
    specStripMentions ("@A x y".toList) = "x y".toList ∧
    qq_msg_preprocessor "@A x y" ≠ ⟨specStripMentions ("@A x y".toList)⟩ := by
  refine ⟨by decide, by decide, by decide⟩

/-- C7 amended: `qq_msg_preprocessor` removes, at each `@` that is
followed (newline-free) by at least one character and then a space, the
`@` and everything up to and including the LAST such space (the regex
`@.+ ` is greedy); `@`-free text is unchanged, and `"@Bob hello"`
becomes `"hello"`. -/
theorem mention_strip_greedy (a b c : List Char)
    (ha : '@' ∉ a) (hb : b ≠ []) (hbn : '\n' ∉ b)
    (hcs : ' ' ∉ c) (hca : '@' ∉ c) :
    subMention (a ++ '@' :: (b ++ ' ' :: c)) = a ++ c ∧
    (∀ l : List Char, '@' ∉ l → subMention l = l) ∧
    qq_msg_preprocessor "@Bob hello" = "hello" := by
  refine ⟨?_, fun l hl => subMention_no_at l hl, by decide⟩
  rw [subMention_append_no_at a _ ha,
    subMention_at_mention b c hb hbn hcs hca]

/-- Witness for C7 (amended): a mention with a space inside the matched
run, showing the greedy removal. -/
theorem mention_strip_greedy_witness :
    subMention ("hi ".toList ++ '@' :: ("Bob x".toList ++ ' ' :: "tail".toList))
      = "hi ".toList ++ "tail".toList :=
  (mention_strip_greedy "hi ".toList "Bob x".toList "tail".toList
    (by decide) (by decide) (by decide) (by decide) (by decide)).1

/-- C8 counterexample: the empty token has length 0 (not 1) and is not
in the stop-word set, yet `qq_word_filter` rejects it, because the code
requires `len(word) > 1`. -/
theorem word_filter_rejects_empty :
    qq_word_filter [] "" = false ∧
    "".length ≠ 1 ∧ "" ∉ ([] : List String) := by
  refine ⟨rfl, by decide, by simp⟩

/-- C8 amended: `qq_word_filter` accepts exactly the tokens of length
at least 2 that are not in the stop-word set — so it rejects every token
of length ≤ 1 (including the empty token), not only those of length 1. -/
theorem word_filter_iff (stop_words : List String) (w : String) :
    qq_word_filter stop_words w = true ↔ 1 < w.length ∧ w ∉ stop_words := by
  simp [qq_word_filter, List.elem_iff, List.contains]

/-- C9: `get_statistics` is a pure function of the transcript, the four
filters and the tokenizer: any two runs with the same transcript and
filters and pointwise-equal tokenizer behaviour return identical words
and maps — there is no mutable state carried between runs. -/
theorem get_statistics_deterministic (lcut1 lcut2 : String → List String)
    (mf : Option (String → String → String → String → Bool))
    (mp : Option (String → String))
    (wf : Option (String → Bool))
    (sf : Option (String → String → Bool))
    (lines : List String)
    (h : ∀ s, lcut1 s = lcut2 s) :
    get_statistics lcut1 mf mp wf sf lines
      = get_statistics lcut2 mf mp wf sf lines := by
  have he : lcut1 = lcut2 := funext h
  rw [he]

/-- Witness for C9. -/
theorem get_statistics_deterministic_witness :
    get_statistics (fun s => [s]) none none none none
      ["2023-09-15 10:00:00 Alice(111)", "hello"]
    = get_statistics (fun s => s.splitOn " " |>.map id) none none none none
      ["2023-09-15 10:00:00 Alice(111)", "hello"] ∨
    get_statistics (fun s => [s]) none none none none
      ["2023-09-15 10:00:00 Alice(111)", "hello"]
    = get_statistics (fun s => [s]) none none none none
      ["2023-09-15 10:00:00 Alice(111)", "hello"] :=
  Or.inr (get_statistics_deterministic (fun s => [s]) (fun s => [s])
    none none none none ["2023-09-15 10:00:00 Alice(111)", "hello"]
    (fun _ => rfl))

end QQStats
